import Mathlib

/-!
# DataScripts: member-usage aggregation and report formatting

A shallow embedding of `src/main.go` and the properties of its aggregation
loop, its spreadsheet locator and its column-width computation.

Modelling conventions.

* A Go `string` is modelled by a Lean `String`, a sequence of Unicode code
  points.  Go compares strings byte by byte; on valid UTF-8 the byte order and
  the code-point order coincide, so `a > b` is the lexicographic order on the
  code-point lists.  `for _, r := range s` visits the code points in order.
* A Go `int` counter is modelled by `Nat`: `UsedDays` is bounded by the number
  of rows and a string width by the byte length of the string, both of which
  are below `2^63`, so the 64-bit counters never wrap.
* `map[string]*MemberUsage` is modelled by an association list with distinct
  keys.  Go iterates a map in an unspecified order, so every statement about a
  `range` over the map is made for an arbitrary permutation of its values.
* An index expression `row[i]` or a dereference `userUsage[k].F` that would
  abort the Go program (index out of range, nil pointer) yields `none`.
-/

namespace DataScripts

/-! ## Data model (`src/main.go`, lines 11-19) -/

/-- MemberUsage is the per-member record of `main.go`. -/
structure MemberUsage where
  Name : String
  Username : String
  Department : String
  UsedDays : Nat
  LastUsed : String
  Platform : String
deriving DecidableEq

/-- The Go expression `a > b` on strings. -/
def strGreater (a b : String) : Bool :=
  decide (b.toList < a.toList)

/-- The aggregation state `userUsage` of `main`: keys in insertion order. -/
abbrev UserMap := List (String × MemberUsage)

/-- The map read `userUsage[k]` (the pointer stored under `k`, if any). -/
def mapGet : UserMap → String → Option MemberUsage
  | [], _ => none
  | (k', v) :: rest, k => if k' = k then some v else mapGet rest k

/-- The map write `userUsage[k] = v`, also the write through the pointer stored under `k`. -/
def mapSet : UserMap → String → MemberUsage → UserMap
  | [], k, v => [(k, v)]
  | (k', v') :: rest, k, v =>
    if k' = k then (k, v) :: rest else (k', v') :: mapSet rest k v

/-! ## The aggregation loop of `main` (lines 55-96) -/

/-- The body of the loop of `main` after the two `continue` guards (lines 67-95). -/
def processRow (userUsage : UserMap) (row : List String) : Option UserMap := do
  let date ← row[0]?
  let name ← row[1]?
  let username ← row[2]?
  let department ← row[3]?
  let status ← row[4]?
  let lastUsed ← row[5]?
  let platform ← row[6]?
  let userUsage :=
    if (mapGet userUsage username).isNone then
      mapSet userUsage username
        { Name := name, Username := username, Department := department,
          UsedDays := 0, LastUsed := "", Platform := platform }
    else userUsage
  if status = "使用" then
    let user ← mapGet userUsage username
    if lastUsed ≠ user.LastUsed then
      let user := { user with UsedDays := user.UsedDays + 1 }
      let user :=
        if strGreater date user.LastUsed && decide (lastUsed ≠ "--") then
          { user with LastUsed := date }
        else user
      let user := { user with Platform := platform }
      pure (mapSet userUsage username user)
    else pure userUsage
  else pure userUsage

/-- The loop `for i, row := range rows` of `main` from index `i` on (lines 58-96). -/
def mainLoop : Nat → List (List String) → UserMap → Option UserMap
  | _, [], userUsage => some userUsage
  | i, row :: rest, userUsage =>
    if i = 0 then mainLoop (i + 1) rest userUsage
    else if row.length < 7 then mainLoop (i + 1) rest userUsage
    else
      match processRow userUsage row with
      | none => none
      | some userUsage' => mainLoop (i + 1) rest userUsage'

/-- The aggregation of `main`: the loop run on an empty map (lines 55-96). -/
def aggregate (rows : List (List String)) : Option UserMap :=
  mainLoop 0 rows []

/-- The loop collecting `neverUsed` (lines 99-104), for the values in the order `range` visits them. -/
def collectNeverUsed (visited : List MemberUsage) : List MemberUsage :=
  visited.filter (fun user => user.UsedDays = 0)

/-- The orders in which `range userUsage` may visit the values of the map. -/
def IsRangeOrder (userUsage : UserMap) (visited : List MemberUsage) : Prop :=
  visited.Perm (userUsage.map Prod.snd)

/-! ## The locator `findExcelFile` (lines 117-132) -/

/-- One entry of `os.ReadDir`: the results of `file.Name()` and `file.IsDir()`. -/
structure DirEntry where
  Name : String
  IsDir : Bool
deriving DecidableEq

/-- Go's `os.IsPathSeparator`: `/`, and on Windows also the backslash (code point 92). -/
def isPathSeparator (windows : Bool) (c : Char) : Bool :=
  c = '/' || (windows && c = Char.ofNat 92)

/-- The loop of Go's `filepath.Ext`, `for i := len(path) - 1; i >= 0 && !IsPathSeparator(path[i]); i--`,
with the loop variable `i` held as `i + 1`. -/
def extLoop (windows : Bool) (path : List Char) : Nat → List Char
  | 0 => []
  | i + 1 =>
    match path[i]? with
    | none => []
    | some c =>
      if isPathSeparator windows c then []
      else if c = '.' then path.drop i
      else extLoop windows path i

/-- Go's `filepath.Ext` (standard library): the suffix beginning at the final dot in the final
element of `path`, empty if there is no dot. -/
def Ext (windows : Bool) (path : String) : String :=
  String.mk (extLoop windows path.toList path.toList.length)

/-- The loop of `findExcelFile` over the entries returned by `os.ReadDir` (lines 123-131). -/
def findExcelFile (windows : Bool) : List DirEntry → String
  | [] => ""
  | file :: rest =>
    if !file.IsDir then
      let ext := Ext windows file.Name
      if ext = ".xlsx" ∨ ext = ".xls" then file.Name
      else findExcelFile windows rest
    else findExcelFile windows rest

/-! ## The reporter: the all-members sheet (lines 193-207) -/

/-- A value passed to `SetCellValue`: a string or an integer. -/
inductive CellValue where
  | str (s : String)
  | int (n : Nat)
deriving DecidableEq

/-- The slice `values` written for one member of the all-members sheet (lines 196-201). -/
def allMembersValues (user : MemberUsage) : List CellValue :=
  let lastUsed := if user.LastUsed = "" then "从未使用" else user.LastUsed
  [.str user.Name, .str user.Username, .str user.Department, .int user.UsedDays,
   .str lastUsed, .str user.Platform]

/-- The data rows of the all-members sheet, for the values in the order `range` visits them. -/
def allMembersRows (visited : List MemberUsage) : List (List CellValue) :=
  visited.map allMembersValues

/-! ## Column widths (lines 227-275) -/

/-- The function `calculateStringWidth` (lines 265-275). -/
def calculateStringWidth (s : String) : Nat :=
  s.toList.foldl
    (fun width r => if r.toNat ≥ 0x4E00 ∧ r.toNat ≤ 0x9FFF then width + 2 else width + 1) 0

/-- The loop `for rowIdx, row := range rows` of `adjustColumnWidth` for column `i`, from index
`rowIdx` on (lines 238-251). -/
def scanColumn (i : Nat) : Nat → List (List String) → Nat → Option Nat
  | _, [], maxWidth => some maxWidth
  | rowIdx, row :: rest, maxWidth =>
    if rowIdx = 0 then scanColumn i (rowIdx + 1) rest maxWidth
    else if row.length ≥ i then
      match row[i - 1]? with
      | none => none
      | some cellValue =>
        let width := calculateStringWidth cellValue
        if width > maxWidth then scanColumn i (rowIdx + 1) rest width
        else scanColumn i (rowIdx + 1) rest maxWidth
    else scanColumn i (rowIdx + 1) rest maxWidth

/-- The clamp of lines 254-258. -/
def clampWidth (maxWidth : Nat) : Nat :=
  if maxWidth < 10 then 10 else if maxWidth > 50 then 50 else maxWidth

/-- The loop `for i := 1; i <= colCount; i++` of `adjustColumnWidth` from `i` on, with
`colCount + 1 - i = remaining`.  The argument `rows` is the result of `f.GetRows(sheet)`
(`none` for an error, which skips the column); the result lists the calls
`SetColWidth(sheet, col i, col i, width)` as pairs `(i, width)`. -/
def adjustLoop (rows : Option (List (List String))) : Nat → Nat → Option (List (Nat × Nat))
  | _, 0 => some []
  | i, remaining + 1 =>
    match rows with
    | none => adjustLoop rows (i + 1) remaining
    | some rs =>
      match scanColumn i 0 rs 0 with
      | none => none
      | some maxWidth =>
        match adjustLoop rows (i + 1) remaining with
        | none => none
        | some calls => some ((i, clampWidth maxWidth) :: calls)

/-- The function `adjustColumnWidth` (lines 227-262). -/
def adjustColumnWidth (rows : Option (List (List String))) (colCount : Nat) :
    Option (List (Nat × Nat)) :=
  adjustLoop rows 1 colCount

/-! ## The specification's vocabulary -/

/-- The width of a string as the specification words it: 2 for each character in
U+4E00..U+9FFF and 1 for any other character. -/
def specStringWidth (s : String) : Nat :=
  2 * s.toList.countP (fun c => decide (0x4E00 ≤ c.toNat ∧ c.toNat ≤ 0x9FFF))
    + s.toList.countP (fun c => !decide (0x4E00 ≤ c.toNat ∧ c.toNat ≤ 0x9FFF))

/-- The quantity `M` of the specification: the maximum width of the `i`-th cell over the
non-header rows with at least `i` cells, 0 if there is none. -/
def specMaxWidth (rows : List (List String)) (i : Nat) : Nat :=
  ((rows.tail.filter (fun row => decide (i ≤ row.length))).map
    (fun row => specStringWidth (row.getD (i - 1) ""))).foldr max 0

/-- The extension as the specification words it: the suffix starting at the last `.`. -/
def lastDotSuffix : List Char → List Char
  | [] => []
  | c :: rest =>
    if '.' ∈ rest then lastDotSuffix rest
    else if c = '.' then c :: rest
    else []

/-- The entries the specification looks for: not a directory, extension `.xlsx` or `.xls`. -/
def isExcelEntry (file : DirEntry) : Bool :=
  !file.IsDir &&
    (decide (lastDotSuffix file.Name.toList = ".xlsx".toList)
      || decide (lastDotSuffix file.Name.toList = ".xls".toList))

/-- The last-used marker of a data row: its column 5. -/
def markerOf (row : List String) : String :=
  row.getD 5 ""

/-- The date of a data row: its column 0. -/
def dateOf (row : List String) : String :=
  row.getD 0 ""

/-- A data row is complete when it has at least 7 columns. -/
def isComplete (row : List String) : Bool :=
  decide (7 ≤ row.length)

/-- The first complete data row (index at least 1) that carries the username. -/
def firstRowOf (username : String) (rows : List (List String)) : Option (List String) :=
  rows.tail.find? (fun row => isComplete row && decide (row[2]? = some username))

/-! ## Total descriptions of the loops, used by the proofs -/

/-- The record created on the first sighting of a username (lines 77-84). -/
def newUser (name username department platform : String) : MemberUsage :=
  { Name := name, Username := username, Department := department,
    UsedDays := 0, LastUsed := "", Platform := platform }

/-- The effect of lines 88-95 on the record of the row's user. -/
def stepUser (user : MemberUsage) (date status lastUsed platform : String) : MemberUsage :=
  if status = "使用" ∧ lastUsed ≠ user.LastUsed then
    { user with
      UsedDays := user.UsedDays + 1
      LastUsed := if user.LastUsed.toList < date.toList ∧ lastUsed ≠ "--" then date
                  else user.LastUsed
      Platform := platform }
  else user

/-- The effect of one complete row on the map. -/
def stepRow (m : UserMap) (date name username department status lastUsed platform : String) :
    UserMap :=
  mapSet m username
    (stepUser ((mapGet m username).getD (newUser name username department platform))
      date status lastUsed platform)

/-- The effect of one row at an index `i ≥ 1` on the map. -/
def rowStep (m : UserMap) (row : List String) : UserMap :=
  match row with
  | date :: name :: username :: department :: status :: lastUsed :: platform :: _ =>
    stepRow m date name username department status lastUsed platform
  | _ => m

/-- The effect of one row at an index `i ≥ 1` on the record stored under `u`. -/
def userStep (u : String) (cur : Option MemberUsage) (row : List String) : Option MemberUsage :=
  match row with
  | date :: name :: username :: department :: status :: lastUsed :: platform :: _ =>
    if username = u then
      some (stepUser (cur.getD (newUser name username department platform))
        date status lastUsed platform)
    else cur
  | _ => cur

/-- The `LastUsed` the next row of a user is compared with: the stored one, or the empty
string of the record the row would create. -/
def curLastUsed (cur : Option MemberUsage) : String :=
  match cur with
  | some e => e.LastUsed
  | none => ""

/-- The `UsedDays` the next row of a user starts from: the stored one, or the 0 of the record
the row would create. -/
def curUsedDays (cur : Option MemberUsage) : Nat :=
  match cur with
  | some e => e.UsedDays
  | none => 0

/-- A property of every way to split a list into earlier elements, one element and later
elements, starting with the earlier elements `pre` already passed. -/
def EachSplit {α : Type} (P : List α → α → List α → Prop) : List α → List α → Prop
  | _, [] => True
  | pre, x :: post => P pre x post ∧ EachSplit P (pre ++ [x]) post

/-- The scan of `extLoop` as a recursion on the reversed prefix still to visit, with the
suffix already visited. -/
def extScan (windows : Bool) : List Char → List Char → List Char
  | [], _ => []
  | c :: rev, suf =>
    if isPathSeparator windows c then []
    else if c = '.' then c :: suf
    else extScan windows rev (c :: suf)

/-! ## Basic facts about the map and the loop -/

theorem mapGet_mapSet (m : UserMap) (k k' : String) (v : MemberUsage) :
    mapGet (mapSet m k v) k' = if k = k' then some v else mapGet m k' := by
  induction m with
  | nil => simp [mapSet, mapGet]
  | cons a rest ih =>
    obtain ⟨ka, va⟩ := a
    by_cases h : ka = k
    · subst h
      by_cases h' : ka = k' <;> simp [mapSet, mapGet, h']
    · by_cases h' : ka = k'
      · subst h'
        have : ¬ k = ka := fun e => h e.symm
        simp [mapSet, mapGet, h, this]
      · simp [mapSet, mapGet, h, h', ih]

theorem mapSet_of_mapGet (m : UserMap) (k : String) (v : MemberUsage)
    (h : mapGet m k = some v) : mapSet m k v = m := by
  induction m with
  | nil => simp [mapGet] at h
  | cons a rest ih =>
    obtain ⟨ka, va⟩ := a
    by_cases hk : ka = k
    · subst hk
      simp [mapGet] at h
      simp [mapSet, h]
    · simp [mapGet, hk] at h
      simp [mapSet, hk, ih h]

theorem mapSet_mapSet (m : UserMap) (k : String) (v w : MemberUsage) :
    mapSet (mapSet m k v) k w = mapSet m k w := by
  induction m with
  | nil => simp [mapSet]
  | cons a rest ih =>
    obtain ⟨ka, va⟩ := a
    by_cases hk : ka = k
    · subst hk
      simp [mapSet]
    · simp [mapSet, hk, ih]

theorem processRow_cons (m : UserMap)
    (date name username department status lastUsed platform : String) (extra : List String) :
    processRow m (date :: name :: username :: department :: status :: lastUsed :: platform :: extra)
      = some (stepRow m date name username department status lastUsed platform) := by
  cases hg : mapGet m username with
  | none =>
    by_cases hs : status = "使用"
    · by_cases hl : lastUsed = ""
      · simp [processRow, stepRow, stepUser, newUser, hg, hs, hl, mapGet_mapSet]
      · simp [processRow, stepRow, stepUser, newUser, hg, hs, hl, mapGet_mapSet, mapSet_mapSet,
          strGreater]
        split <;> rfl
    · simp [processRow, stepRow, stepUser, newUser, hg, hs]
  | some user =>
    by_cases hs : status = "使用"
    · by_cases hl : lastUsed = user.LastUsed
      · simp [processRow, stepRow, stepUser, hg, hs, hl, mapSet_of_mapGet]
      · simp [processRow, stepRow, stepUser, hg, hs, hl, strGreater]
        split <;> rfl
    · simp [processRow, stepRow, stepUser, hg, hs, mapSet_of_mapGet]

theorem row_cases (row : List String) (h : ¬ row.length < 7) :
    ∃ date name username department status lastUsed platform extra,
      row = date :: name :: username :: department :: status :: lastUsed :: platform :: extra := by
  match row, h with
  | a :: b :: c :: d :: e :: f :: g :: r, _ => exact ⟨a, b, c, d, e, f, g, r, rfl⟩
  | [], h | [_], h | [_, _], h | [_, _, _], h | [_, _, _, _], h | [_, _, _, _, _], h
  | [_, _, _, _, _, _], h => simp at h

theorem rowStep_short (m : UserMap) (row : List String) (h : row.length < 7) :
    rowStep m row = m := by
  match row, h with
  | a :: b :: c :: d :: e :: f :: g :: r, h => simp at h; omega
  | [], _ | [_], _ | [_, _], _ | [_, _, _], _ | [_, _, _, _], _ | [_, _, _, _, _], _
  | [_, _, _, _, _, _], _ => rfl

theorem mainLoop_succ (i : Nat) (rows : List (List String)) (m : UserMap) :
    mainLoop (i + 1) rows m = some (rows.foldl rowStep m) := by
  induction rows generalizing i m with
  | nil => simp [mainLoop]
  | cons row rest ih =>
    by_cases h : row.length < 7
    · simp [mainLoop, h, ih, rowStep_short]
    · obtain ⟨a, b, c, d, e, f, g, r, rfl⟩ := row_cases row h
      simp only [mainLoop, processRow_cons, ih, List.foldl_cons, rowStep]
      simp

theorem aggregate_cons (header : List String) (rows : List (List String)) :
    aggregate (header :: rows) = some (rows.foldl rowStep []) := by
  simp [aggregate, mainLoop, mainLoop_succ]

theorem mapGet_rowStep (m : UserMap) (row : List String) (u : String) :
    mapGet (rowStep m row) u = userStep u (mapGet m u) row := by
  unfold rowStep userStep
  split
  · simp only [stepRow, mapGet_mapSet]
    split <;> simp_all
  · rfl

theorem mapGet_foldl (rows : List (List String)) (m : UserMap) (u : String) :
    mapGet (rows.foldl rowStep m) u = rows.foldl (userStep u) (mapGet m u) := by
  induction rows generalizing m with
  | nil => rfl
  | cons row rest ih => simp [ih, mapGet_rowStep]

theorem mem_of_mapGet (m : UserMap) (k : String) (v : MemberUsage)
    (h : mapGet m k = some v) : (k, v) ∈ m := by
  induction m with
  | nil => simp [mapGet] at h
  | cons a rest ih =>
    obtain ⟨ka, va⟩ := a
    by_cases hk : ka = k
    · simp [mapGet, hk] at h
      simp [hk, h]
    · simp [mapGet, hk] at h
      simp [ih h]

theorem mapGet_of_mem (m : UserMap) (k : String) (v : MemberUsage)
    (hn : (m.map Prod.fst).Nodup) (h : (k, v) ∈ m) : mapGet m k = some v := by
  induction m with
  | nil => simp at h
  | cons a rest ih =>
    obtain ⟨ka, va⟩ := a
    simp only [List.map_cons, List.nodup_cons, List.mem_map, not_exists, not_and] at hn
    rcases List.mem_cons.mp h with h | h
    · cases h
      simp [mapGet]
    · have hk : ¬ ka = k := fun e => hn.1 (k, v) h (e ▸ rfl)
      simp [mapGet, hk, ih hn.2 h]

theorem mapGet_eq_none_iff (m : UserMap) (k : String) :
    mapGet m k = none ↔ k ∉ m.map Prod.fst := by
  induction m with
  | nil => simp [mapGet]
  | cons a rest ih =>
    obtain ⟨ka, va⟩ := a
    by_cases hk : ka = k
    · simp [mapGet, hk]
    · have : ¬ k = ka := fun e => hk e.symm
      simp only [mapGet, hk, if_false, ih]
      simp [this]

theorem keys_mapSet (m : UserMap) (k : String) (v : MemberUsage) :
    (mapSet m k v).map Prod.fst =
      if k ∈ m.map Prod.fst then m.map Prod.fst else m.map Prod.fst ++ [k] := by
  induction m with
  | nil => simp [mapSet]
  | cons a rest ih =>
    obtain ⟨ka, va⟩ := a
    by_cases hk : ka = k
    · simp [mapSet, hk]
    · have : ¬ k = ka := fun e => hk e.symm
      simp only [mapSet, hk, if_false, List.map_cons, ih, List.mem_cons, this, false_or]
      split <;> simp

theorem nodup_keys_mapSet (m : UserMap) (k : String) (v : MemberUsage)
    (hn : (m.map Prod.fst).Nodup) : ((mapSet m k v).map Prod.fst).Nodup := by
  rw [keys_mapSet]
  split
  · exact hn
  · rename_i h
    rw [List.nodup_append]
    refine ⟨hn, by simp, ?_⟩
    intro a ha hb
    simp only [List.mem_singleton] at hb
    exact h (hb ▸ ha)

theorem nodup_keys_rowStep (m : UserMap) (row : List String)
    (hn : (m.map Prod.fst).Nodup) : ((rowStep m row).map Prod.fst).Nodup := by
  unfold rowStep
  split
  · exact nodup_keys_mapSet _ _ _ hn
  · exact hn

theorem nodup_keys_foldl (rows : List (List String)) (m : UserMap)
    (hn : (m.map Prod.fst).Nodup) : ((rows.foldl rowStep m).map Prod.fst).Nodup := by
  induction rows generalizing m with
  | nil => exact hn
  | cons row rest ih => exact ih _ (nodup_keys_rowStep m row hn)

theorem rowStep_take (m : UserMap) (row : List String) :
    rowStep m (row.take 7) = rowStep m row := by
  match row with
  | a :: b :: c :: d :: e :: f :: g :: r => simp [rowStep]
  | [] | [_] | [_, _] | [_, _, _] | [_, _, _, _] | [_, _, _, _, _]
  | [_, _, _, _, _, _] => rfl

theorem foldl_rowStep_filter (rows : List (List String)) (m : UserMap) :
    rows.foldl rowStep m = ((rows.filter isComplete).map (List.take 7)).foldl rowStep m := by
  induction rows generalizing m with
  | nil => rfl
  | cons row rest ih =>
    by_cases h : row.length < 7
    · have hc : isComplete row = false := by simp [isComplete]; omega
      simp [List.filter_cons, hc, rowStep_short m row h, ih]
    · have hc : isComplete row = true := by simp [isComplete]; omega
      simp only [List.foldl_cons, List.filter_cons, hc, if_true, List.map_cons, rowStep_take]
      exact ih _

theorem strLt_iff (a b : String) : a.toList < b.toList ↔ a < b :=
  String.lt_iff_toList_lt.symm

theorem empty_le (a : String) : "" ≤ a := by
  rw [String.le_iff_toList_le]
  cases a with
  | mk l => cases l <;> simp [List.nil_lt_cons, le_of_lt]

theorem stepUser_lastUsed (e : MemberUsage) (date status lastUsed platform : String) :
    (stepUser e date status lastUsed platform).LastUsed = e.LastUsed ∨
      (e.LastUsed < date ∧ lastUsed ≠ "--" ∧ status = "使用" ∧ lastUsed ≠ e.LastUsed ∧
        (stepUser e date status lastUsed platform).LastUsed = date) := by
  unfold stepUser
  by_cases h1 : status = "使用" ∧ lastUsed ≠ e.LastUsed
  · rw [if_pos h1]
    by_cases h2 : e.LastUsed.toList < date.toList ∧ lastUsed ≠ "--"
    · right
      refine ⟨(strLt_iff _ _).mp h2.1, h2.2, h1.1, h1.2, ?_⟩
      show (if _ then date else e.LastUsed) = date
      rw [if_pos h2]
    · left
      show (if _ then date else e.LastUsed) = e.LastUsed
      rw [if_neg h2]
  · left
    rw [if_neg h1]

/-! ## Facts about the record of one user -/

theorem stepUser_of_usedDays_zero (e : MemberUsage) (date status lastUsed platform : String)
    (h : (stepUser e date status lastUsed platform).UsedDays = 0) :
    stepUser e date status lastUsed platform = e := by
  unfold stepUser at h ⊢
  by_cases h1 : status = "使用" ∧ lastUsed ≠ e.LastUsed
  · rw [if_pos h1] at h
    simp at h
  · rw [if_neg h1]

theorem stepUser_not_used (e : MemberUsage) (date status lastUsed platform : String)
    (h : status ≠ "使用") : stepUser e date status lastUsed platform = e := by
  unfold stepUser
  rw [if_neg (fun hc => h hc.1)]

theorem stepUser_advance (e : MemberUsage) (date lastUsed platform : String)
    (h1 : lastUsed ≠ e.LastUsed) (h2 : e.LastUsed.toList < date.toList) (h3 : lastUsed ≠ "--") :
    stepUser e date "使用" lastUsed platform =
      { e with UsedDays := e.UsedDays + 1, LastUsed := date, Platform := platform } := by
  unfold stepUser
  rw [if_pos ⟨rfl, h1⟩, if_pos ⟨h2, h3⟩]

theorem stepUser_count (e : MemberUsage) (date lastUsed platform : String)
    (h1 : lastUsed ≠ e.LastUsed) (h2 : ¬ (e.LastUsed.toList < date.toList ∧ lastUsed ≠ "--")) :
    stepUser e date "使用" lastUsed platform =
      { e with UsedDays := e.UsedDays + 1, Platform := platform } := by
  unfold stepUser
  rw [if_pos ⟨rfl, h1⟩, if_neg h2]

theorem stepUser_same_marker (e : MemberUsage) (date status platform : String) :
    stepUser e date status e.LastUsed platform = e := by
  unfold stepUser
  rw [if_neg (fun hc => hc.2 rfl)]

theorem userStep_short (u : String) (cur : Option MemberUsage) (row : List String)
    (hs : row.length < 7) : userStep u cur row = cur := by
  match row, hs with
  | a :: b :: c :: d :: e :: f :: g :: r, hs => simp at hs; omega
  | [], _ | [_], _ | [_, _], _ | [_, _, _], _ | [_, _, _, _], _ | [_, _, _, _, _], _
  | [_, _, _, _, _, _], _ => rfl

theorem userStep_self (u : String) (cur : Option MemberUsage)
    (date name department status lastUsed platform : String) (extra : List String) :
    userStep u cur (date :: name :: u :: department :: status :: lastUsed :: platform :: extra) =
      some (stepUser (cur.getD (newUser name u department platform))
        date status lastUsed platform) := by
  simp [userStep]

theorem userStep_other (u : String) (cur : Option MemberUsage)
    (date name username department status lastUsed platform : String) (extra : List String)
    (hu : ¬ username = u) :
    userStep u cur
      (date :: name :: username :: department :: status :: lastUsed :: platform :: extra) = cur := by
  simp [userStep, hu]

theorem foldl_userStep_some (u : String) (rows : List (List String)) (e0 : MemberUsage) :
    ∃ e, rows.foldl (userStep u) (some e0) = some e ∧ (e.UsedDays = 0 → e = e0) := by
  induction rows generalizing e0 with
  | nil => exact ⟨e0, rfl, fun _ => rfl⟩
  | cons row rest ih =>
    by_cases hs : row.length < 7
    · simp only [List.foldl_cons, userStep_short u _ row hs]
      exact ih e0
    · obtain ⟨date, name, username, department, status, lastUsed, platform, extra, rfl⟩ :=
        row_cases row hs
      by_cases hu : username = u
      · subst hu
        obtain ⟨e, he, hz⟩ := ih (stepUser e0 date status lastUsed platform)
        refine ⟨e, by simp only [List.foldl_cons, userStep_self, Option.getD_some, he],
          fun h0 => ?_⟩
        have h1 := hz h0
        rw [h1]
        apply stepUser_of_usedDays_zero
        rw [← h1]
        exact h0
      · obtain ⟨e, he, hz⟩ := ih e0
        exact ⟨e, by simp only [List.foldl_cons, userStep_other _ _ _ _ _ _ _ _ _ _ hu, he], hz⟩

theorem foldl_userStep_none (u : String) (rows : List (List String)) :
    (rows.foldl (userStep u) none = none ∧
        rows.find? (fun row => isComplete row && decide (row[2]? = some u)) = none) ∨
      ∃ e row, rows.foldl (userStep u) none = some e ∧
        rows.find? (fun row => isComplete row && decide (row[2]? = some u)) = some row ∧
        (e.UsedDays = 0 → e.LastUsed = "" ∧ row[6]? = some e.Platform) := by
  induction rows with
  | nil => exact Or.inl ⟨rfl, rfl⟩
  | cons row rest ih =>
    by_cases hs : row.length < 7
    · have hstep : userStep u none row = none := userStep_short u none row hs
      have hc : isComplete row = false := by simp [isComplete]; omega
      simp only [List.foldl_cons, hstep, List.find?_cons, hc, Bool.false_and]
      exact ih
    · obtain ⟨date, name, username, department, status, lastUsed, platform, extra, rfl⟩ :=
        row_cases row hs
      by_cases hu : username = u
      · subst hu
        right
        obtain ⟨e, he, hz⟩ := foldl_userStep_some username rest
          (stepUser (newUser name username department platform) date status lastUsed platform)
        refine ⟨e,
          date :: name :: username :: department :: status :: lastUsed :: platform :: extra,
          by simp only [List.foldl_cons, userStep_self, Option.getD_none, he],
          by simp [isComplete], fun h0 => ?_⟩
        have h1 := hz h0
        have h2 := stepUser_of_usedDays_zero (newUser name username department platform)
          date status lastUsed platform (by rw [← h1]; exact h0)
        rw [h1, h2]
        simp [newUser]
      · have hstep : userStep u none
            (date :: name :: username :: department :: status :: lastUsed :: platform :: extra)
            = none := by simp [userStep, hu]
        simp only [List.foldl_cons, hstep, List.find?_cons]
        simpa [hu] using ih

theorem foldl_userStep_unused (u : String) (rows : List (List String))
    (hnever : ∀ row ∈ rows, isComplete row = true → row[2]? = some u → row[4]? ≠ some "使用")
    (cur : Option MemberUsage) (h0 : ∀ e, cur = some e → e.UsedDays = 0) :
    ∀ e, rows.foldl (userStep u) cur = some e → e.UsedDays = 0 := by
  induction rows generalizing cur with
  | nil => exact h0
  | cons row rest ih =>
    simp only [List.foldl_cons]
    apply ih (fun r hr => hnever r (List.mem_cons_of_mem _ hr))
    intro e he
    by_cases hs : row.length < 7
    · rw [userStep_short u cur row hs] at he
      exact h0 e he
    · obtain ⟨date, name, username, department, status, lastUsed, platform, extra, rfl⟩ :=
        row_cases row hs
      by_cases hu : username = u
      · have hst : status ≠ "使用" := by
          have := hnever _ (List.mem_cons_self _ _) (by simp [isComplete]) (by simp [hu])
          simpa using this
        simp only [userStep, hu, if_true, stepUser_not_used _ _ _ _ _ hst,
          Option.some.injEq] at he
        subst he
        cases cur with
        | none => simp [newUser]
        | some e' => simpa using h0 e' rfl
      · simp only [userStep, hu, if_false] at he
        exact h0 e he

theorem foldl_userStep_isSome (u : String) (rows : List (List String))
    (hocc : ∃ row ∈ rows, isComplete row = true ∧ row[2]? = some u) :
    ∃ e, rows.foldl (userStep u) none = some e := by
  rcases foldl_userStep_none u rows with h | ⟨e, _, he, _⟩
  · obtain ⟨row, hrow, hc, hu⟩ := hocc
    have := List.find?_eq_none.mp h.2 row hrow
    simp [hc, hu] at this
  · exact ⟨e, he⟩

theorem eachSplit_split {α : Type} (P : List α → α → List α → Prop) (l pre0 : List α)
    (h : EachSplit P pre0 l) (pre : List α) (x : α) (post : List α)
    (hl : l = pre ++ x :: post) : P (pre0 ++ pre) x post := by
  induction l generalizing pre0 pre with
  | nil => cases pre <;> cases hl
  | cons y rest ih =>
    cases pre with
    | nil =>
      simp only [List.nil_append, List.cons.injEq] at hl
      obtain ⟨rfl, rfl⟩ := hl
      simpa using h.1
    | cons z pre1 =>
      simp only [List.cons_append, List.cons.injEq] at hl
      obtain ⟨rfl, hrest⟩ := hl
      have := ih (pre0 ++ [y]) h.2 pre1 hrest
      simpa using this

theorem dedup_length_append_singleton (l : List String) (a : String) :
    (l ++ [a]).dedup.length = if a ∈ l then l.dedup.length else l.dedup.length + 1 := by
  rw [← List.card_toFinset, ← List.card_toFinset, List.toFinset_append]
  by_cases h : a ∈ l
  · have hsub : [a].toFinset ⊆ l.toFinset := by
      intro b hb
      simp only [List.toFinset_cons, List.toFinset_nil, insert_emptyc_eq,
        Finset.mem_singleton] at hb
      rw [hb]
      exact List.mem_toFinset.mpr h
    rw [if_pos h, Finset.union_eq_left.mpr hsub]
  · have hdis : Disjoint l.toFinset [a].toFinset := by
      rw [Finset.disjoint_right]
      intro b hb
      simp only [List.toFinset_cons, List.toFinset_nil, insert_emptyc_eq,
        Finset.mem_singleton] at hb
      rw [hb]
      exact fun hc => h (List.mem_toFinset.mp hc)
    rw [if_neg h, Finset.card_union_of_disjoint hdis]
    simp

theorem userStep_used (u : String) (cur : Option MemberUsage)
    (date name department marker platform : String) (extra : List String) :
    ∃ e, userStep u cur
        (date :: name :: u :: department :: "使用" :: marker :: platform :: extra) = some e ∧
      e.UsedDays =
        (if marker = curLastUsed cur then curUsedDays cur else curUsedDays cur + 1) ∧
      e.LastUsed =
        (if marker = curLastUsed cur then curLastUsed cur
         else if curLastUsed cur < date ∧ marker ≠ "--" then date else curLastUsed cur) := by
  have hL : (cur.getD (newUser name u department platform)).LastUsed = curLastUsed cur := by
    cases cur <;> rfl
  have hC : (cur.getD (newUser name u department platform)).UsedDays = curUsedDays cur := by
    cases cur <;> rfl
  refine ⟨_, userStep_self u cur date name department "使用" marker platform extra, ?_⟩
  by_cases hm : marker = curLastUsed cur
  · have hstep : stepUser (cur.getD (newUser name u department platform)) date "使用" marker
        platform = cur.getD (newUser name u department platform) := by
      rw [hm, ← hL]
      exact stepUser_same_marker _ _ _ _
    rw [hstep, if_pos hm, if_pos hm]
    exact ⟨hC, hL⟩
  · have hm' : marker ≠ (cur.getD (newUser name u department platform)).LastUsed := by
      rw [hL]
      exact hm
    rw [if_neg hm, if_neg hm]
    by_cases hadv : curLastUsed cur < date ∧ marker ≠ "--"
    · have h1 : (cur.getD (newUser name u department platform)).LastUsed.toList
          < date.toList := by
        rw [hL]
        exact (strLt_iff _ _).mpr hadv.1
      rw [stepUser_advance _ _ _ _ hm' h1 hadv.2, if_pos hadv]
      exact ⟨by rw [← hC], rfl⟩
    · have h1 : ¬ ((cur.getD (newUser name u department platform)).LastUsed.toList
          < date.toList ∧ marker ≠ "--") := by
        rw [hL]
        exact fun hc => hadv ⟨(strLt_iff _ _).mp hc.1, hc.2⟩
      rw [stepUser_count _ _ _ _ hm' h1, if_neg hadv]
      exact ⟨by rw [← hC], hL⟩

theorem usedDays_prefix_invariant (u : String) (rows : List (List String))
    (hrows : ∀ row ∈ rows, ∃ date name department marker platform extra,
      row = date :: name :: u :: department :: "使用" :: marker :: platform :: extra ∧
      marker ≠ "")
    (hcons : ∀ pre x post, rows = pre ++ x :: post → markerOf x ∈ pre.map markerOf →
      ∃ pre' a, pre = pre' ++ [a] ∧ markerOf a = markerOf x)
    (hdate : ∀ pre x post, rows = pre ++ x :: post →
      ∀ r ∈ pre, dateOf r = markerOf x → markerOf r = markerOf x)
    (hrep : ∀ pre x post, rows = pre ++ x :: post → markerOf x ∉ pre.map markerOf →
      markerOf x ∈ post.map markerOf →
      markerOf x ≠ "--" ∧ dateOf x = markerOf x ∧ ∀ r ∈ pre, dateOf r < markerOf x)
    (post pre : List (List String)) (hsplit : rows = pre ++ post)
    (h0 : pre ≠ [] → (pre.foldl (userStep u) none).isSome = true)
    (h1 : curLastUsed (pre.foldl (userStep u) none) = "" ∨
      ∃ r ∈ pre, curLastUsed (pre.foldl (userStep u) none) = dateOf r)
    (h2 : ∀ pre' a, pre = pre' ++ [a] →
      (∃ j post', rows = pre ++ j :: post' ∧ markerOf j = markerOf a) →
      curLastUsed (pre.foldl (userStep u) none) = markerOf a)
    (h3 : curUsedDays (pre.foldl (userStep u) none) = (pre.map markerOf).dedup.length) :
    (rows ≠ [] → (rows.foldl (userStep u) none).isSome = true) ∧
      curUsedDays (rows.foldl (userStep u) none) = (rows.map markerOf).dedup.length := by
  induction post generalizing pre with
  | nil =>
    rw [List.append_nil] at hsplit
    rw [hsplit]
    exact ⟨h0, h3⟩
  | cons x post ih =>
    have hsplit' : rows = (pre ++ [x]) ++ post := by simp [hsplit]
    have hx : x ∈ rows := by simp [hsplit]
    obtain ⟨date, name, department, marker, platform, extra, rfl, hne⟩ := hrows x hx
    have hmk : markerOf
        (date :: name :: u :: department :: "使用" :: marker :: platform :: extra) = marker := rfl
    have hdt : dateOf
        (date :: name :: u :: department :: "使用" :: marker :: platform :: extra) = date := rfl
    obtain ⟨e, he, hC, hL⟩ := userStep_used u (pre.foldl (userStep u) none)
      date name department marker platform extra
    have hfold : (pre ++
        [date :: name :: u :: department :: "使用" :: marker :: platform :: extra]).foldl
        (userStep u) none = some e := by
      rw [List.foldl_append, List.foldl_cons, List.foldl_nil, he]
    have hlast : ∀ pre' a, pre ++
        [date :: name :: u :: department :: "使用" :: marker :: platform :: extra] = pre' ++ [a] →
        markerOf a = marker := by
      intro pre' a hpa
      have := List.append_inj_right' hpa rfl
      simp only [List.cons.injEq, and_true] at this
      rw [← this]
      exact hmk
    apply ih _ hsplit'
    · intro _
      rw [hfold]
      rfl
    · rw [hfold]
      show e.LastUsed = "" ∨ ∃ r ∈ pre ++
        [date :: name :: u :: department :: "使用" :: marker :: platform :: extra],
        e.LastUsed = dateOf r
      by_cases hin : marker ∈ pre.map markerOf
      · obtain ⟨pre', a, hpre, ha⟩ := hcons pre _ post hsplit (by rw [hmk]; exact hin)
        have hcur := h2 pre' a hpre ⟨_, post, hsplit, ha.symm⟩
        rw [ha, hmk] at hcur
        rw [if_pos hcur.symm] at hL
        rw [hL]
        rcases h1 with h1 | ⟨r, hr, h1⟩
        · exact Or.inl h1
        · exact Or.inr ⟨r, List.mem_append_left _ hr, h1⟩
      · by_cases hm : marker = curLastUsed (pre.foldl (userStep u) none)
        · rw [if_pos hm] at hL
          rw [hL]
          rcases h1 with h1 | ⟨r, hr, h1⟩
          · exact Or.inl h1
          · exact Or.inr ⟨r, List.mem_append_left _ hr, h1⟩
        · rw [if_neg hm] at hL
          by_cases hadv : curLastUsed (pre.foldl (userStep u) none) < date ∧ marker ≠ "--"
          · rw [if_pos hadv] at hL
            exact Or.inr ⟨_, List.mem_append_right _ (List.mem_singleton_self _),
              by rw [hL, hdt]⟩
          · rw [if_neg hadv] at hL
            rw [hL]
            rcases h1 with h1 | ⟨r, hr, h1⟩
            · exact Or.inl h1
            · exact Or.inr ⟨r, List.mem_append_left _ hr, h1⟩
    · intro pre' a hpa hnext
      rw [hfold, hlast pre' a hpa]
      show e.LastUsed = marker
      by_cases hin : marker ∈ pre.map markerOf
      · obtain ⟨pre1, b, hpre, hb⟩ := hcons pre _ post hsplit (by rw [hmk]; exact hin)
        have hcur := h2 pre1 b hpre ⟨_, post, hsplit, hb.symm⟩
        rw [hb, hmk] at hcur
        rw [if_pos hcur.symm] at hL
        rw [hL, hcur]
      · have hm : ¬ marker = curLastUsed (pre.foldl (userStep u) none) := by
          intro hm
          rcases h1 with h1 | ⟨r, hr, h1⟩
          · exact hne (hm.trans h1)
          · have := hdate pre _ post hsplit r hr (by rw [hmk, hm, h1])
            rw [hmk] at this
            exact hin (List.mem_map.mpr ⟨r, hr, this⟩)
        obtain ⟨j, post', hj, hjm⟩ := hnext
        have hpost : post = j :: post' := by
          have h' : pre ++ (date :: name :: u :: department :: "使用" :: marker :: platform ::
              extra) :: post = pre ++ (date :: name :: u :: department :: "使用" :: marker ::
              platform :: extra) :: (j :: post') := by
            rw [← hsplit, hj]
            simp
          simpa using h'
        have hinpost : marker ∈ post.map markerOf := by
          rw [hpost, ← hlast pre' a hpa, ← hjm]
          simp
        obtain ⟨hs, hdm, hlt⟩ := hrep pre _ post hsplit (by rw [hmk]; exact hin)
          (by rw [hmk]; exact hinpost)
        rw [hmk] at hs hlt
        rw [hdt, hmk] at hdm
        have hadv : curLastUsed (pre.foldl (userStep u) none) < date ∧ marker ≠ "--" := by
          refine ⟨?_, hs⟩
          rcases h1 with h1 | ⟨r, hr, h1⟩
          · rw [h1, hdm]
            exact lt_of_le_of_ne (empty_le _) (fun h => hne h.symm)
          · rw [h1, hdm]
            exact hlt r hr
        rw [if_neg hm, if_pos hadv] at hL
        rw [hL, hdm]
    · rw [hfold]
      show e.UsedDays = _
      rw [List.map_append, List.map_cons, List.map_nil, hmk, dedup_length_append_singleton]
      by_cases hin : marker ∈ pre.map markerOf
      · obtain ⟨pre1, b, hpre, hb⟩ := hcons pre _ post hsplit (by rw [hmk]; exact hin)
        have hcur := h2 pre1 b hpre ⟨_, post, hsplit, hb.symm⟩
        rw [hb, hmk] at hcur
        rw [if_pos hcur.symm] at hC
        rw [if_pos hin, hC, h3]
      · have hm : ¬ marker = curLastUsed (pre.foldl (userStep u) none) := by
          intro hm
          rcases h1 with h1 | ⟨r, hr, h1⟩
          · exact hne (hm.trans h1)
          · have := hdate pre _ post hsplit r hr (by rw [hmk, hm, h1])
            rw [hmk] at this
            exact hin (List.mem_map.mpr ⟨r, hr, this⟩)
        rw [if_neg hm] at hC
        rw [if_neg hin, hC, h3]

theorem collectNeverUsed_spec (visited : List MemberUsage) (x : MemberUsage) :
    x ∈ collectNeverUsed visited ↔ x ∈ visited ∧ x.UsedDays = 0 := by
  simp [collectNeverUsed]

theorem allMembersValues_lastUsed (e : MemberUsage) (h : e.LastUsed = "") :
    (allMembersValues e)[4]? = some (CellValue.str "从未使用") := by
  simp [allMembersValues, h]

/-! ## Facts about the locator -/

theorem extLoop_eq_extScan (windows : Bool) (pre suf : List Char) :
    extLoop windows (pre ++ suf) pre.length = extScan windows pre.reverse suf := by
  induction pre using List.reverseRecOn generalizing suf with
  | nil => rfl
  | append_singleton pre c ih =>
    have hget : (pre ++ [c] ++ suf)[pre.length]? = some c := by
      rw [List.append_assoc, List.getElem?_append_right (le_refl _)]
      simp
    have hdrop : (pre ++ [c] ++ suf).drop pre.length = c :: suf := by
      simp [List.drop_append_eq_append_drop]
    have ih' := ih (c :: suf)
    have happ : pre ++ c :: suf = pre ++ [c] ++ suf := by simp
    rw [happ] at ih'
    simp only [List.length_append, List.length_singleton, List.reverse_append,
      List.reverse_singleton, List.singleton_append, extLoop, extScan, hget, hdrop, ih']

theorem lastDotSuffix_of_not_mem (l : List Char) (h : '.' ∉ l) : lastDotSuffix l = [] := by
  cases l with
  | nil => rfl
  | cons c rest =>
    simp only [List.mem_cons, not_or] at h
    have hc : ¬ c = '.' := fun e => h.1 e.symm
    simp [lastDotSuffix, h.2, hc]

theorem lastDotSuffix_append_dot (l suf : List Char) (h : '.' ∉ suf) :
    lastDotSuffix (l ++ '.' :: suf) = '.' :: suf := by
  induction l with
  | nil => simp [lastDotSuffix, h]
  | cons c rest ih => simp [lastDotSuffix, ih]

theorem lastDotSuffix_append (l s : List Char) (h : '.' ∉ s) :
    lastDotSuffix (l ++ s) = [] ∨ ∃ t, lastDotSuffix (l ++ s) = t ++ s := by
  induction l with
  | nil => exact Or.inl (lastDotSuffix_of_not_mem s h)
  | cons c rest ih =>
    by_cases hd : '.' ∈ rest ++ s
    · simpa [lastDotSuffix, hd] using ih
    · by_cases hc : c = '.'
      · right
        refine ⟨c :: rest, ?_⟩
        show lastDotSuffix (c :: (rest ++ s)) = c :: (rest ++ s)
        simp only [lastDotSuffix, hd, hc, if_false, if_true]
      · left
        show lastDotSuffix (c :: (rest ++ s)) = []
        simp only [lastDotSuffix, hd, hc, if_false]

theorem isPathSeparator_dot (windows : Bool) : isPathSeparator windows '.' = false := by
  cases windows <;> decide

theorem lastDotSuffix_of_extScan (windows : Bool) (rev suf r : List Char)
    (h : extScan windows rev suf = r) (hr : r ≠ []) (hs : '.' ∉ suf) :
    lastDotSuffix (rev.reverse ++ suf) = r := by
  induction rev generalizing suf with
  | nil => exact absurd h.symm hr
  | cons c rev ih =>
    simp only [List.reverse_cons, List.append_assoc, List.singleton_append]
    by_cases hsep : isPathSeparator windows c = true
    · simp only [extScan, hsep, if_true] at h
      exact absurd h.symm hr
    · by_cases hc : c = '.'
      · subst hc
        simp only [extScan, hsep, if_true] at h
        rw [lastDotSuffix_append_dot _ _ hs]
        simpa using h
      · simp only [extScan, hsep, hc, if_false] at h
        refine ih (c :: suf) (by simpa using h) ?_
        simp only [List.mem_cons, not_or]
        exact ⟨fun e => hc e.symm, hs⟩

theorem extScan_of_lastDotSuffix (windows : Bool) (rev suf r : List Char)
    (h : lastDotSuffix (rev.reverse ++ suf) = r) (hr : r ≠ [])
    (hsep : ∀ x ∈ r, isPathSeparator windows x = false) (hs : '.' ∉ suf) :
    extScan windows rev suf = r := by
  induction rev generalizing suf with
  | nil =>
    rw [List.reverse_nil, List.nil_append, lastDotSuffix_of_not_mem suf hs] at h
    exact absurd h.symm hr
  | cons c rev ih =>
    simp only [List.reverse_cons, List.append_assoc, List.singleton_append] at h
    by_cases hc : c = '.'
    · subst hc
      rw [lastDotSuffix_append_dot _ _ hs] at h
      simp [extScan, isPathSeparator_dot, h]
    · have hs' : '.' ∉ c :: suf := by
        simp only [List.mem_cons, not_or]
        exact ⟨fun e => hc e.symm, hs⟩
      have hcsep : isPathSeparator windows c = false := by
        rcases lastDotSuffix_append rev.reverse (c :: suf) hs' with h0 | ⟨t, ht⟩
        · rw [h0] at h
          exact absurd h.symm hr
        · apply hsep
          rw [← h, ht]
          simp
      simp only [extScan, hcsep, hc, if_false, Bool.false_eq_true]
      exact ih (c :: suf) h hs'

theorem ext_eq_iff (windows : Bool) (name : String) (t : List Char) (ht : t ≠ [])
    (hsep : ∀ x ∈ t, isPathSeparator windows x = false) :
    Ext windows name = String.mk t ↔ lastDotSuffix name.toList = t := by
  have hscan : extLoop windows name.toList name.toList.length
      = extScan windows name.toList.reverse [] := by
    have := extLoop_eq_extScan windows name.toList []
    simpa using this
  unfold Ext
  rw [hscan]
  constructor
  · intro h
    have h' : extScan windows name.toList.reverse [] = t := by
      have := congrArg String.toList h
      simpa using this
    have := lastDotSuffix_of_extScan windows name.toList.reverse [] t h' ht (by simp)
    simpa using this
  · intro h
    have := extScan_of_lastDotSuffix windows name.toList.reverse [] t (by simpa using h) ht hsep
      (by simp)
    rw [this]

theorem ext_test_iff (windows : Bool) (file : DirEntry) :
    (!file.IsDir) = true ∧ (Ext windows file.Name = ".xlsx" ∨ Ext windows file.Name = ".xls") ↔
      isExcelEntry file = true := by
  have h1 := ext_eq_iff windows file.Name ".xlsx".toList (by decide)
    (by cases windows <;> decide)
  have h2 := ext_eq_iff windows file.Name ".xls".toList (by decide)
    (by cases windows <;> decide)
  have e1 : String.mk ".xlsx".toList = ".xlsx" := rfl
  have e2 : String.mk ".xls".toList = ".xls" := rfl
  rw [e1] at h1
  rw [e2] at h2
  simp only [isExcelEntry, Bool.and_eq_true, Bool.or_eq_true, decide_eq_true_eq, h1, h2]

theorem name_ne_empty_of_isExcelEntry (file : DirEntry) (h : isExcelEntry file = true) :
    file.Name ≠ "" := by
  intro hn
  simp only [isExcelEntry, hn, Bool.and_eq_true, Bool.or_eq_true, decide_eq_true_eq] at h
  rcases h.2 with h | h
  · exact absurd h (by decide)
  · exact absurd h (by decide)

/-- C8: `findExcelFile` returns the name of the first entry, in iteration order, that is not a
directory and whose extension (the suffix starting at the last dot of the name) is `.xlsx` or
`.xls`, and it returns the empty string exactly when no entry is such a file. -/
theorem findExcelFile_first_match (windows : Bool) (files : List DirEntry) :
    findExcelFile windows files = ((files.find? isExcelEntry).map DirEntry.Name).getD "" ∧
    (findExcelFile windows files = "" ↔ ∀ file ∈ files, isExcelEntry file = false) := by
  induction files with
  | nil => simp [findExcelFile]
  | cons file rest ih =>
    by_cases hx : isExcelEntry file = true
    · have hcond := (ext_test_iff windows file).mpr hx
      have hres : findExcelFile windows (file :: rest) = file.Name := by
        simp only [findExcelFile, hcond.1, if_true, hcond.2]
      rw [hres]
      refine ⟨by simp [List.find?_cons, hx], ?_⟩
      constructor
      · intro hn
        exact absurd hn (name_ne_empty_of_isExcelEntry file hx)
      · intro hall
        have := hall file (List.mem_cons_self _ _)
        rw [hx] at this
        cases this
    · have hcond : ¬ ((!file.IsDir) = true ∧
          (Ext windows file.Name = ".xlsx" ∨ Ext windows file.Name = ".xls")) :=
        fun hc => hx ((ext_test_iff windows file).mp hc)
      have hres : findExcelFile windows (file :: rest) = findExcelFile windows rest := by
        by_cases hd : (!file.IsDir) = true
        · have : ¬ (Ext windows file.Name = ".xlsx" ∨ Ext windows file.Name = ".xls") :=
            fun hc => hcond ⟨hd, hc⟩
          simp only [findExcelFile, hd, if_true, this, if_false]
        · simp only [findExcelFile, hd, if_false, Bool.false_eq_true]
      have hx' : isExcelEntry file = false := by simpa using hx
      rw [hres]
      refine ⟨by simp [List.find?_cons, hx', ih.1], ?_⟩
      rw [ih.2]
      simp [hx']

/-! ## Facts about the column widths, and claim C5 -/

theorem foldl_width (l : List Char) (acc : Nat) :
    l.foldl
      (fun width r => if r.toNat ≥ 0x4E00 ∧ r.toNat ≤ 0x9FFF then width + 2 else width + 1) acc =
      acc + (2 * l.countP (fun c => decide (0x4E00 ≤ c.toNat ∧ c.toNat ≤ 0x9FFF))
        + l.countP (fun c => !decide (0x4E00 ≤ c.toNat ∧ c.toNat ≤ 0x9FFF))) := by
  induction l generalizing acc with
  | nil => simp
  | cons c rest ih =>
    rw [List.foldl_cons, ih, List.countP_cons, List.countP_cons]
    by_cases hc : 0x4E00 ≤ c.toNat ∧ c.toNat ≤ 0x9FFF
    · have hc' : c.toNat ≥ 0x4E00 ∧ c.toNat ≤ 0x9FFF := hc
      rw [if_pos hc']
      have h1 : decide (0x4E00 ≤ c.toNat ∧ c.toNat ≤ 0x9FFF) = true := decide_eq_true hc
      rw [h1]
      simp only [if_true, Bool.not_true, Bool.false_eq_true, if_false]
      omega
    · have hc' : ¬ (c.toNat ≥ 0x4E00 ∧ c.toNat ≤ 0x9FFF) := hc
      rw [if_neg hc']
      have h1 : decide (0x4E00 ≤ c.toNat ∧ c.toNat ≤ 0x9FFF) = false := decide_eq_false hc
      rw [h1]
      simp only [if_true, Bool.not_false, Bool.false_eq_true, if_false]
      omega

theorem calculateStringWidth_eq (s : String) : calculateStringWidth s = specStringWidth s := by
  unfold calculateStringWidth specStringWidth
  rw [foldl_width]
  omega

theorem clampWidth_eq (w : Nat) : clampWidth w = min 50 (max 10 w) := by
  unfold clampWidth
  split
  · omega
  · split <;> omega

theorem scanColumn_succ (i : Nat) (hi : 1 ≤ i) (rowIdx : Nat) (rows : List (List String))
    (maxWidth : Nat) :
    scanColumn i (rowIdx + 1) rows maxWidth =
      some (max maxWidth (((rows.filter (fun row => decide (i ≤ row.length))).map
        (fun row => specStringWidth (row.getD (i - 1) ""))).foldr max 0)) := by
  induction rows generalizing rowIdx maxWidth with
  | nil => simp [scanColumn]
  | cons row rest ih =>
    by_cases hlen : i ≤ row.length
    · have hlt : i - 1 < row.length := by omega
      have hget : row[i - 1]? = some (row.getD (i - 1) "") := by
        rw [List.getD_eq_getElem?_getD, List.getElem?_eq_getElem hlt]
        rfl
      have hge : row.length ≥ i := hlen
      simp only [scanColumn, Nat.add_one_ne_zero, if_false, hge, if_true, hget,
        calculateStringWidth_eq, List.filter_cons, hlen, decide_True, List.map_cons,
        List.foldr_cons]
      split
      · rw [ih]
        congr 1
        omega
      · rw [ih]
        congr 1
        omega
    · have hge : ¬ row.length ≥ i := hlen
      simp only [scanColumn, Nat.add_one_ne_zero, if_false, hge, List.filter_cons, hlen,
        decide_False, Bool.false_eq_true]
      exact ih _ _

theorem scanColumn_zero (i : Nat) (hi : 1 ≤ i) (rows : List (List String)) :
    scanColumn i 0 rows 0 = some (specMaxWidth rows i) := by
  cases rows with
  | nil => rfl
  | cons header rest =>
    simp only [scanColumn, if_true, Nat.zero_add, specMaxWidth, List.tail_cons]
    rw [scanColumn_succ i hi 0 rest 0]
    simp

theorem adjustLoop_eq (rows : List (List String)) (i : Nat) (hi : 1 ≤ i) (remaining : Nat) :
    adjustLoop (some rows) i remaining =
      some ((List.range' i remaining).map
        (fun j => (j, min 50 (max 10 (specMaxWidth rows j))))) := by
  induction remaining generalizing i with
  | zero => rfl
  | succ n ih =>
    simp only [adjustLoop, scanColumn_zero i hi rows, ih (i + 1) (by omega), clampWidth_eq,
      List.range'_succ, List.map_cons]

/-- C5: for the rows of a sheet, `adjustColumnWidth` sets, for each column `i` from 1 to
`colCount` in turn, the width `min 50 (max 10 M)`, where `M` is the largest width of an `i`-th
cell over the non-header rows with at least `i` cells (0 if there is none) and the width of a
string counts 2 for each character in U+4E00..U+9FFF and 1 for any other; a longest cell of four
CJK characters gives 10, one of width 60 gives 50 and one of width 23 gives 23. -/
theorem column_width_clamped (rows : List (List String)) (colCount : Nat) :
    adjustColumnWidth (some rows) colCount =
      some ((List.range' 1 colCount).map
        (fun i => (i, min 50 (max 10 (specMaxWidth rows i))))) ∧
    (∀ s, calculateStringWidth s = specStringWidth s) ∧
    (calculateStringWidth "成员使用" = 8 ∧
      adjustColumnWidth (some [["姓名"], ["张三"], ["成员使用"]]) 1 = some [(1, 10)]) ∧
    (calculateStringWidth (String.mk (List.replicate 60 'a')) = 60 ∧
      adjustColumnWidth (some [["部门"], [String.mk (List.replicate 60 'a')], ["b"]]) 1
        = some [(1, 50)]) ∧
    (calculateStringWidth "成员使用-platform-abcde" = 23 ∧
      adjustColumnWidth (some [["平台"], ["Web"], ["成员使用-platform-abcde"]]) 1
        = some [(1, 23)]) := by
  refine ⟨adjustLoop_eq rows 1 (le_refl _) colCount, calculateStringWidth_eq, ?_, ?_, ?_⟩
  · decide
  · decide
  · decide

/-! ## The claims about the aggregation loop -/

/-- C6: in one iteration of the loop of `main`, from any state, any row and any index, the
`LastUsed` stored for a user never moves backwards in the lexicographic order, and it changes
only when the row's date is strictly greater than the stored value and the row's last-used
marker is not `--`, the new value then being the row's date.  A user created by the row starts
from the empty `LastUsed` and follows the same rule. -/
theorem lastUsed_never_moves_back (i : Nat) (row : List String) (m : UserMap) (u : String) :
    ∃ m', mainLoop i [row] m = some m' ∧
      (∀ e, mapGet m u = some e →
        ∃ e', mapGet m' u = some e' ∧ e.LastUsed ≤ e'.LastUsed ∧
          (e'.LastUsed = e.LastUsed ∨
            ∃ date marker, row[0]? = some date ∧ row[5]? = some marker ∧
              e.LastUsed < date ∧ marker ≠ "--" ∧ e'.LastUsed = date)) ∧
      (mapGet m u = none → ∀ e', mapGet m' u = some e' →
        (e'.LastUsed = "" ∨
          ∃ date marker, row[0]? = some date ∧ row[5]? = some marker ∧
            "" < date ∧ marker ≠ "--" ∧ e'.LastUsed = date)) := by
  by_cases hi : i = 0
  · refine ⟨m, by simp [mainLoop, hi], fun e he => ⟨e, he, le_refl _, Or.inl rfl⟩, ?_⟩
    intro hn e' he'
    rw [hn] at he'
    cases he'
  · obtain ⟨k, rfl⟩ := Nat.exists_eq_succ_of_ne_zero hi
    refine ⟨rowStep m row, by simp [mainLoop_succ], ?_, ?_⟩
    · intro e he
      rw [mapGet_rowStep, he]
      by_cases hs : row.length < 7
      · rw [← he, ← mapGet_rowStep, rowStep_short m row hs]
        exact ⟨e, he, le_refl _, Or.inl rfl⟩
      · obtain ⟨date, name, username, department, status, lastUsed, platform, extra, rfl⟩ :=
          row_cases row hs
        by_cases hu : username = u
        · refine ⟨stepUser e date status lastUsed platform, by simp [userStep, hu], ?_⟩
          rcases stepUser_lastUsed e date status lastUsed platform with h | h
          · exact ⟨le_of_eq h.symm, Or.inl h⟩
          · refine ⟨?_, Or.inr ⟨date, lastUsed, rfl, rfl, h.1, h.2.1, h.2.2.2.2⟩⟩
            rw [h.2.2.2.2]
            exact le_of_lt h.1
        · exact ⟨e, by simp [userStep, hu], le_refl _, Or.inl rfl⟩
    · intro hn e' he'
      rw [mapGet_rowStep, hn] at he'
      by_cases hs : row.length < 7
      · rw [← hn, ← mapGet_rowStep, rowStep_short m row hs, hn] at he'
        cases he'
      · obtain ⟨date, name, username, department, status, lastUsed, platform, extra, rfl⟩ :=
          row_cases row hs
        by_cases hu : username = u
        · simp only [userStep, hu, if_true, Option.getD_none, Option.some.injEq] at he'
          subst he'
          rcases stepUser_lastUsed (newUser name u department platform) date status lastUsed
            platform with h | h
          · exact Or.inl h
          · exact Or.inr ⟨date, lastUsed, rfl, rfl, h.1, h.2.1, h.2.2.2.2⟩
        · simp [userStep, hu] at he'

/-- C7: the header row and the rows with fewer than 7 columns contribute nothing and never
abort the loop: two inputs whose complete rows after row 0 agree on their first seven columns,
whatever their row 0 and their incomplete rows, produce the same mapping, and an input without
a complete data row produces the empty mapping. -/
theorem header_and_short_rows_ignored (header header' : List String)
    (rows rows' : List (List String))
    (h : (rows.filter isComplete).map (List.take 7) = (rows'.filter isComplete).map (List.take 7)) :
    (∃ m, aggregate (header :: rows) = some m ∧ aggregate (header' :: rows') = some m) ∧
      aggregate [] = some [] ∧
      (rows.filter isComplete = [] → aggregate (header :: rows) = some []) := by
  refine ⟨⟨rows.foldl rowStep [], aggregate_cons _ _, ?_⟩, rfl, ?_⟩
  · rw [aggregate_cons, foldl_rowStep_filter rows', ← h, ← foldl_rowStep_filter]
  · intro h0
    rw [aggregate_cons, foldl_rowStep_filter, h0]
    rfl

/-- Witness for C7: a replaced header, an inserted short row and an extra eighth column. -/
theorem header_and_short_rows_ignored_witness :
    (∃ m, aggregate [["日期"], ["2024-01-01", "n", "u", "d", "使用", "m", "p"]] = some m ∧
        aggregate [["x", "y"], ["2024-01-02"], ["2024-01-01", "n", "u", "d", "使用", "m", "p", "z"],
          []] = some m) ∧
      aggregate [] = some [] ∧
      (([["2024-01-01", "n", "u", "d", "使用", "m", "p"]] : List (List String)).filter isComplete = [] →
        aggregate [["日期"], ["2024-01-01", "n", "u", "d", "使用", "m", "p"]] = some []) :=
  header_and_short_rows_ignored ["日期"] ["x", "y"]
    [["2024-01-01", "n", "u", "d", "使用", "m", "p"]]
    [["2024-01-02"], ["2024-01-01", "n", "u", "d", "使用", "m", "p", "z"], []] (by decide)

/-- C9: two consecutive complete rows of a user not yet in the map, both with status `使用`
and the marker `--`, each increment `UsedDays` (1 after the first row, 2 after the second)
while `LastUsed` stays empty. -/
theorem sentinel_rows_count_twice (i : Nat) (m : UserMap)
    (date1 name1 department1 platform1 date2 name2 department2 platform2 u : String)
    (extra1 extra2 : List String) (hu : mapGet m u = none) :
    ∃ m1 e1 m2 e2,
      mainLoop (i + 1)
        [date1 :: name1 :: u :: department1 :: "使用" :: "--" :: platform1 :: extra1] m = some m1 ∧
      mapGet m1 u = some e1 ∧ e1.UsedDays = 1 ∧ e1.LastUsed = "" ∧
      mainLoop (i + 2)
        [date2 :: name2 :: u :: department2 :: "使用" :: "--" :: platform2 :: extra2] m1 = some m2 ∧
      mapGet m2 u = some e2 ∧ e2.UsedDays = 2 ∧ e2.LastUsed = "" ∧
      mainLoop (i + 1)
        [date1 :: name1 :: u :: department1 :: "使用" :: "--" :: platform1 :: extra1,
         date2 :: name2 :: u :: department2 :: "使用" :: "--" :: platform2 :: extra2] m = some m2 := by
  refine ⟨rowStep m (date1 :: name1 :: u :: department1 :: "使用" :: "--" :: platform1 :: extra1),
    stepUser (newUser name1 u department1 platform1) date1 "使用" "--" platform1,
    rowStep (rowStep m (date1 :: name1 :: u :: department1 :: "使用" :: "--" :: platform1 :: extra1))
      (date2 :: name2 :: u :: department2 :: "使用" :: "--" :: platform2 :: extra2),
    stepUser (stepUser (newUser name1 u department1 platform1) date1 "使用" "--" platform1)
      date2 "使用" "--" platform2,
    mainLoop_succ _ _ _, ?_, ?_, ?_, mainLoop_succ _ _ _, ?_, ?_, ?_, mainLoop_succ _ _ _⟩
  · simp only [mapGet_rowStep, hu, userStep, if_true, Option.getD_none]
  · simp [stepUser, newUser]
  · simp [stepUser, newUser]
  · simp only [mapGet_rowStep, hu, userStep, if_true, Option.getD_none, Option.getD_some]
  · simp [stepUser, newUser]
  · simp [stepUser, newUser]

/-- Witness for C9: two sentinel rows of a new user on an empty map. -/
theorem sentinel_rows_count_twice_witness :
    ∃ m1 e1 m2 e2,
      mainLoop (0 + 1) ["2024-01-01" :: "n" :: "u" :: "d" :: "使用" :: "--" :: "p" :: []] [] = some m1 ∧
      mapGet m1 "u" = some e1 ∧ e1.UsedDays = 1 ∧ e1.LastUsed = "" ∧
      mainLoop (0 + 2) ["2024-01-02" :: "n" :: "u" :: "d" :: "使用" :: "--" :: "q" :: []] m1 = some m2 ∧
      mapGet m2 "u" = some e2 ∧ e2.UsedDays = 2 ∧ e2.LastUsed = "" ∧
      mainLoop (0 + 1)
        ["2024-01-01" :: "n" :: "u" :: "d" :: "使用" :: "--" :: "p" :: [],
         "2024-01-02" :: "n" :: "u" :: "d" :: "使用" :: "--" :: "q" :: []] [] = some m2 :=
  sentinel_rows_count_twice 0 [] "2024-01-01" "n" "d" "p" "2024-01-02" "n" "d" "q" "u" [] []
    (by decide)

/-- C1, counterexample: two `使用` rows of one user that repeat the marker `m` on two dates.  The
stored `LastUsed` is the first row's date, not its marker, so the second row is counted too:
`UsedDays` is 2, the number of rows, while the rows carry one distinct marker. -/
theorem distinct_markers_counterexample :
    aggregate [["日期", "姓名", "账号", "部门", "状态", "最后使用时间", "平台"],
        ["2024-01-01", "n", "u", "d", "使用", "m", "p"],
        ["2024-01-02", "n", "u", "d", "使用", "m", "p"]]
      = some [("u", ⟨"n", "u", "d", 2, "2024-01-02", "p"⟩)] ∧
    ([["2024-01-01", "n", "u", "d", "使用", "m", "p"],
      ["2024-01-02", "n", "u", "d", "使用", "m", "p"]].map markerOf).dedup.length = 1 := by
  decide

/-- C1, amended: for a non-empty sequence of complete rows of one user, all with status `使用`,
in which rows repeating a marker are consecutive, no marker is empty, a marker equals the date
of an earlier row only if that row carries the same marker, and every marker carried by more
than one row is not `--`, equals the date of the first row carrying it and is greater than the
date of every earlier row, the aggregation leaves `UsedDays` equal to the number of distinct
markers. -/
theorem usedDays_counts_distinct_markers (header : List String) (rows : List (List String))
    (u : String) (hne : rows ≠ [])
    (hrows : ∀ row ∈ rows, ∃ date name department marker platform extra,
      row = date :: name :: u :: department :: "使用" :: marker :: platform :: extra ∧
      marker ≠ "")
    (hcons : ∀ pre x post, rows = pre ++ x :: post → markerOf x ∈ pre.map markerOf →
      ∃ pre' a, pre = pre' ++ [a] ∧ markerOf a = markerOf x)
    (hdate : ∀ pre x post, rows = pre ++ x :: post →
      ∀ r ∈ pre, dateOf r = markerOf x → markerOf r = markerOf x)
    (hrep : ∀ pre x post, rows = pre ++ x :: post → markerOf x ∉ pre.map markerOf →
      markerOf x ∈ post.map markerOf →
      markerOf x ≠ "--" ∧ dateOf x = markerOf x ∧ ∀ r ∈ pre, dateOf r < markerOf x) :
    ∃ m e, aggregate (header :: rows) = some m ∧ mapGet m u = some e ∧
      e.UsedDays = (rows.map markerOf).dedup.length := by
  obtain ⟨hsome, hcount⟩ := usedDays_prefix_invariant u rows hrows hcons hdate hrep rows []
    rfl (fun h => absurd rfl h) (Or.inl rfl)
    (fun pre' a h => by cases pre' <;> cases h) rfl
  obtain ⟨e, he⟩ := Option.isSome_iff_exists.mp (hsome hne)
  refine ⟨_, e, aggregate_cons _ _, ?_, ?_⟩
  · rw [mapGet_foldl]
    exact he
  · rw [he] at hcount
    exact hcount

/-- Witness for the amended C1: the markers 2024-01-01 and 2024-01-03 are each repeated on the
following day and counted once: `UsedDays` is 2 for four rows. -/
theorem usedDays_counts_distinct_markers_witness :
    ∃ m e, aggregate (["日期"] :: [["2024-01-01", "n", "u", "d", "使用", "2024-01-01", "p"],
        ["2024-01-02", "n", "u", "d", "使用", "2024-01-01", "p"],
        ["2024-01-03", "n", "u", "d", "使用", "2024-01-03", "q"],
        ["2024-01-04", "n", "u", "d", "使用", "2024-01-03", "q"]]) = some m ∧
      mapGet m "u" = some e ∧
      e.UsedDays = ([["2024-01-01", "n", "u", "d", "使用", "2024-01-01", "p"],
        ["2024-01-02", "n", "u", "d", "使用", "2024-01-01", "p"],
        ["2024-01-03", "n", "u", "d", "使用", "2024-01-03", "q"],
        ["2024-01-04", "n", "u", "d", "使用", "2024-01-03", "q"]].map markerOf).dedup.length :=
  usedDays_counts_distinct_markers ["日期"] _ "u" (by decide)
    (by
      intro row hrow
      simp only [List.mem_cons, List.mem_singleton, List.not_mem_nil, or_false] at hrow
      rcases hrow with rfl | rfl | rfl | rfl
      · exact ⟨"2024-01-01", "n", "d", "2024-01-01", "p", [], rfl, by decide⟩
      · exact ⟨"2024-01-02", "n", "d", "2024-01-01", "p", [], rfl, by decide⟩
      · exact ⟨"2024-01-03", "n", "d", "2024-01-03", "q", [], rfl, by decide⟩
      · exact ⟨"2024-01-04", "n", "d", "2024-01-03", "q", [], rfl, by decide⟩)
    (fun pre x post h => by
      have := eachSplit_split
        (fun pre x _ => markerOf x ∈ pre.map markerOf →
          ∃ pre' a, pre = pre' ++ [a] ∧ markerOf a = markerOf x) _ []
        (by
          refine ⟨fun hc => ?_, fun _ => ⟨[], _, rfl, by decide⟩, fun hc => ?_,
            fun _ => ⟨_, _, rfl, by decide⟩, trivial⟩
          · exact absurd hc (by decide)
          · exact absurd hc (by decide)) pre x post h
      simpa using this)
    (fun pre x post h => by
      have := eachSplit_split
        (fun pre x _ => ∀ r ∈ pre, dateOf r = markerOf x → markerOf r = markerOf x) _ []
        (by
          refine ⟨by decide, by decide, by decide, by decide, trivial⟩) pre x post h
      simpa using this)
    (fun pre x post h => by
      have := eachSplit_split
        (fun pre x post => markerOf x ∉ pre.map markerOf → markerOf x ∈ post.map markerOf →
          markerOf x ≠ "--" ∧ dateOf x = markerOf x ∧ ∀ r ∈ pre, dateOf r < markerOf x) _ []
        (by
          refine ⟨fun _ _ => ⟨by decide, by decide, by simp⟩, fun hc => ?_,
            fun _ _ => ⟨by decide, by decide, ?_⟩, fun hc => ?_, trivial⟩
          · exact absurd (by decide) hc
          · intro r hr
            simp only [List.nil_append, List.cons_append, List.mem_cons, List.mem_singleton,
              List.not_mem_nil, or_false] at hr
            rcases hr with rfl | rfl <;>
              exact String.lt_iff_toList_lt.mpr (by decide)
          · exact absurd (by decide) hc) pre x post h
      simpa using this)

/-- C2, counterexample: two rows of one user dated 2024-01-01 and 2024-02-01, both `使用`, with
the distinct markers `a` and `2024-01-01`, neither of them `--`: the second marker equals the
`LastUsed` stored by the first row, the second row is skipped, and the user ends with `LastUsed`
2024-01-01 and the first row's platform. -/
theorem two_rows_counterexample :
    aggregate [["日期", "姓名", "账号", "部门", "状态", "最后使用时间", "平台"],
        ["2024-01-01", "n", "u", "d", "使用", "a", "iOS"],
        ["2024-02-01", "n", "u", "d", "使用", "2024-01-01", "Android"]]
      = some [("u", ⟨"n", "u", "d", 1, "2024-01-01", "iOS"⟩)] ∧
    "a" ≠ "2024-01-01" ∧ "a" ≠ "--" ∧ "2024-01-01" ≠ "--" ∧
    ¬ (∃ m e, aggregate [["日期", "姓名", "账号", "部门", "状态", "最后使用时间", "平台"],
        ["2024-01-01", "n", "u", "d", "使用", "a", "iOS"],
        ["2024-02-01", "n", "u", "d", "使用", "2024-01-01", "Android"]] = some m ∧
      mapGet m "u" = some e ∧ e.LastUsed = "2024-02-01" ∧ e.Platform = "Android") := by
  have h : aggregate [["日期", "姓名", "账号", "部门", "状态", "最后使用时间", "平台"],
        ["2024-01-01", "n", "u", "d", "使用", "a", "iOS"],
        ["2024-02-01", "n", "u", "d", "使用", "2024-01-01", "Android"]]
      = some [("u", ⟨"n", "u", "d", 1, "2024-01-01", "iOS"⟩)] := by decide
  refine ⟨h, by decide, by decide, by decide, ?_⟩
  rintro ⟨m, e, hm, he, hl, _⟩
  rw [h] at hm
  cases hm
  simp [mapGet] at he
  subst he
  revert hl
  decide

/-- C2, amended: for a header row followed by two complete rows of one user, both `使用`, dated
2024-01-01 then 2024-02-01, with distinct markers that are not `--`, and with the second marker
different from 2024-01-01 unless the first marker is empty, the user ends with `LastUsed`
2024-02-01 and the second row's platform. -/
theorem two_rows_last_used (header : List String)
    (u name1 department1 marker1 platform1 name2 department2 marker2 platform2 : String)
    (extra1 extra2 : List String)
    (hne : marker1 ≠ marker2) (h1 : marker1 ≠ "--") (h2 : marker2 ≠ "--")
    (hd : marker1 = "" ∨ marker2 ≠ "2024-01-01") :
    ∃ m e, aggregate [header,
        "2024-01-01" :: name1 :: u :: department1 :: "使用" :: marker1 :: platform1 :: extra1,
        "2024-02-01" :: name2 :: u :: department2 :: "使用" :: marker2 :: platform2 :: extra2]
        = some m ∧
      mapGet m u = some e ∧ e.LastUsed = "2024-02-01" ∧ e.Platform = platform2 := by
  have a1 : "".toList < "2024-01-01".toList := by decide
  have a2 : "".toList < "2024-02-01".toList := by decide
  have a3 : "2024-01-01".toList < "2024-02-01".toList := by decide
  refine ⟨_, stepUser (stepUser (newUser name1 u department1 platform1)
      "2024-01-01" "使用" marker1 platform1) "2024-02-01" "使用" marker2 platform2,
    aggregate_cons _ _, ?_, ?_, ?_⟩
  · rw [mapGet_foldl]
    simp only [List.foldl_cons, List.foldl_nil, userStep_self, mapGet, Option.getD_none,
      Option.getD_some]
  · by_cases hm : marker1 = ""
    · subst hm
      rw [show stepUser (newUser name1 u department1 platform1) "2024-01-01" "使用" "" platform1
        = newUser name1 u department1 platform1 from stepUser_same_marker _ _ _ _]
      rw [stepUser_advance _ _ _ _ (fun e => hne e.symm) a2 h2]
    · rw [stepUser_advance _ _ _ _ hm a1 h1]
      rw [stepUser_advance _ _ _ _ (hd.resolve_left hm) a3 h2]
  · by_cases hm : marker1 = ""
    · subst hm
      rw [show stepUser (newUser name1 u department1 platform1) "2024-01-01" "使用" "" platform1
        = newUser name1 u department1 platform1 from stepUser_same_marker _ _ _ _]
      rw [stepUser_advance _ _ _ _ (fun e => hne e.symm) a2 h2]
    · rw [stepUser_advance _ _ _ _ hm a1 h1]
      rw [stepUser_advance _ _ _ _ (hd.resolve_left hm) a3 h2]

/-- Witness for the amended C2: markers `a` and `b`, platforms iOS then Android. -/
theorem two_rows_last_used_witness :
    ∃ m e, aggregate [["日期"],
        "2024-01-01" :: "n" :: "u" :: "d" :: "使用" :: "a" :: "iOS" :: [],
        "2024-02-01" :: "n" :: "u" :: "d" :: "使用" :: "b" :: "Android" :: []] = some m ∧
      mapGet m "u" = some e ∧ e.LastUsed = "2024-02-01" ∧ e.Platform = "Android" :=
  two_rows_last_used ["日期"] "u" "n" "d" "a" "iOS" "n" "d" "b" "Android" [] []
    (by decide) (by decide) (by decide) (Or.inr (by decide))

/-- C4: for every input the aggregation returns a mapping whose never-used list, in whatever
order the map is visited, holds exactly the records of the mapping with `UsedDays = 0`, so every
entry of the list has `UsedDays = 0`; and a username that occurs in a complete data row but in no
complete data row with status `使用` has a record with `UsedDays = 0` that is in the list. -/
theorem never_used_members (rows : List (List String)) (u : String) :
    ∃ m, aggregate rows = some m ∧
      (∀ visited, IsRangeOrder m visited → ∀ x,
        (x ∈ collectNeverUsed visited ↔ (∃ k, (k, x) ∈ m) ∧ x.UsedDays = 0) ∧
        (x ∈ collectNeverUsed visited → x.UsedDays = 0)) ∧
      ((∃ row ∈ rows.tail, isComplete row = true ∧ row[2]? = some u) →
        (∀ row ∈ rows.tail, isComplete row = true → row[2]? = some u →
          row[4]? ≠ some "使用") →
        ∃ e, mapGet m u = some e ∧ e.UsedDays = 0 ∧
          ∀ visited, IsRangeOrder m visited → e ∈ collectNeverUsed visited) := by
  have hlist : ∀ m : UserMap, ∀ visited, IsRangeOrder m visited → ∀ x,
      (x ∈ collectNeverUsed visited ↔ (∃ k, (k, x) ∈ m) ∧ x.UsedDays = 0) ∧
      (x ∈ collectNeverUsed visited → x.UsedDays = 0) := by
    intro m visited hv x
    have hmem : x ∈ visited ↔ ∃ k, (k, x) ∈ m := by
      rw [hv.mem_iff, List.mem_map]
      constructor
      · rintro ⟨⟨k, y⟩, hk, rfl⟩
        exact ⟨k, hk⟩
      · rintro ⟨k, hk⟩
        exact ⟨(k, x), hk, rfl⟩
    rw [collectNeverUsed_spec, hmem]
    exact ⟨Iff.rfl, fun h => h.2⟩
  cases rows with
  | nil =>
    refine ⟨[], rfl, hlist [], ?_⟩
    intro hocc
    simp at hocc
  | cons header rest =>
    refine ⟨rest.foldl rowStep [], aggregate_cons _ _, hlist _, ?_⟩
    intro hocc hnever
    simp only [List.tail_cons] at hocc hnever
    obtain ⟨e, he⟩ := foldl_userStep_isSome u rest hocc
    have hget : mapGet (rest.foldl rowStep []) u = some e := by
      rw [mapGet_foldl]
      exact he
    have h0 : e.UsedDays = 0 :=
      foldl_userStep_unused u rest hnever none (fun _ h => by cases h) e he
    refine ⟨e, hget, h0, fun visited hv => ?_⟩
    rw [collectNeverUsed_spec]
    refine ⟨?_, h0⟩
    rw [hv.mem_iff]
    exact List.mem_map.mpr ⟨(u, e), mem_of_mapGet _ _ _ hget, rfl⟩

/-- Witness for C4: user `v` appears once, with status `未使用`, next to a user who used; the
record of `v` has `UsedDays = 0` and is in the never-used list. -/
theorem never_used_members_witness :
    ∃ m e, aggregate [["日期"], ["2024-01-01", "a", "u", "d", "使用", "x", "iOS"],
        ["2024-01-01", "b", "v", "d", "未使用", "--", "Web"]] = some m ∧
      mapGet m "v" = some e ∧ e.UsedDays = 0 ∧
      (∀ visited, IsRangeOrder m visited → e ∈ collectNeverUsed visited) ∧
      (∀ visited, IsRangeOrder m visited → ∀ x ∈ collectNeverUsed visited, x.UsedDays = 0) := by
  obtain ⟨m, hm, hlist, hfwd⟩ := never_used_members
    [["日期"], ["2024-01-01", "a", "u", "d", "使用", "x", "iOS"],
      ["2024-01-01", "b", "v", "d", "未使用", "--", "Web"]] "v"
  obtain ⟨e, he, h0, hin⟩ := hfwd
    ⟨["2024-01-01", "b", "v", "d", "未使用", "--", "Web"], by decide, by decide, by decide⟩
    (by decide)
  exact ⟨m, e, hm, he, h0, hin, fun visited hv x hx => (hlist visited hv x).2 hx⟩

/-- C10: every member of the aggregated mapping with `UsedDays = 0` has an empty `LastUsed` and
the platform of the first complete data row that carries its username, and is written to the
all-members sheet with `从未使用` in the last-used column; so is every member of the never-used
list, whatever the orders in which the two loops visit the map. -/
theorem unused_member_fields (rows : List (List String)) :
    ∃ m, aggregate rows = some m ∧
      (∀ k e, (k, e) ∈ m → e.UsedDays = 0 →
        e.LastUsed = "" ∧
        (∃ row, firstRowOf k rows = some row ∧ row[6]? = some e.Platform) ∧
        (allMembersValues e)[4]? = some (CellValue.str "从未使用")) ∧
      (∀ visited visited', IsRangeOrder m visited → IsRangeOrder m visited' →
        ∀ e ∈ collectNeverUsed visited,
          allMembersValues e ∈ allMembersRows visited' ∧
          (allMembersValues e)[4]? = some (CellValue.str "从未使用")) := by
  cases rows with
  | nil =>
    refine ⟨[], rfl, fun k e h => by simp at h, fun visited visited' hv _ e he => ?_⟩
    have := ((collectNeverUsed_spec visited e).mp he).1
    rw [hv.mem_iff] at this
    simp at this
  | cons header rest =>
    have key : ∀ k e, (k, e) ∈ rest.foldl rowStep [] → e.UsedDays = 0 →
        e.LastUsed = "" ∧
        (∃ row, firstRowOf k (header :: rest) = some row ∧ row[6]? = some e.Platform) := by
      intro k e hmem h0
      have hget := mapGet_of_mem _ k e (nodup_keys_foldl rest [] (by simp)) hmem
      rw [mapGet_foldl] at hget
      rcases foldl_userStep_none k rest with h | ⟨e', row, he', hrow, hz⟩
      · rw [show mapGet [] k = none from rfl, h.1] at hget
        cases hget
      · rw [show mapGet [] k = none from rfl, he'] at hget
        cases hget
        exact ⟨(hz h0).1, row, hrow, (hz h0).2⟩
    refine ⟨_, aggregate_cons _ _, fun k e hmem h0 => ?_, fun visited visited' hv hv' e he => ?_⟩
    · obtain ⟨h1, h2⟩ := key k e hmem h0
      exact ⟨h1, h2, allMembersValues_lastUsed e h1⟩
    · obtain ⟨hmem, h0⟩ := (collectNeverUsed_spec visited e).mp he
      have hmem' : e ∈ visited' := by
        rw [hv'.mem_iff, ← hv.mem_iff]
        exact hmem
      rw [hv.mem_iff] at hmem
      obtain ⟨⟨k, e1⟩, hk, rfl⟩ := List.mem_map.mp hmem
      exact ⟨List.mem_map.mpr ⟨_, hmem', rfl⟩,
        allMembersValues_lastUsed _ (key k _ hk h0).1⟩

/-- C3, counterexample: a header and three complete rows over the users `u` and `v`; `u` has two
`使用` rows with the distinct markers 2023-12-31 and 2024-01-01, `v` has one row that is not
`使用`.  The second marker of `u` equals the `LastUsed` stored by its first row, so the second
row is not counted and `u` ends with `UsedDays = 1`, not 2. -/
theorem two_users_counterexample :
    aggregate [["日期", "姓名", "账号", "部门", "状态", "最后使用时间", "平台"],
        ["2024-01-01", "a", "u", "d", "使用", "2023-12-31", "iOS"],
        ["2024-01-02", "a", "u", "d", "使用", "2024-01-01", "iOS"],
        ["2024-01-02", "b", "v", "d", "未使用", "--", "Web"]]
      = some [("u", ⟨"a", "u", "d", 1, "2024-01-01", "iOS"⟩),
              ("v", ⟨"b", "v", "d", 0, "", "Web"⟩)] ∧
    "u" ≠ "v" ∧ "2023-12-31" ≠ "2024-01-01" ∧ "未使用" ≠ "使用" := by
  decide

/-- C3, amended: a header and three complete rows over two distinct usernames, in any of the
three interleavings that keep the order of the first user's rows; the first user has two `使用`
rows whose first marker is non-empty and whose second marker differs from the `LastUsed` stored
by the first row (the first row's date when that date is non-empty and the first marker is not
`--`, the empty string otherwise); the second user has one row that is not `使用`.  Then the
mapping has 2 members, the never-used list is exactly the second user's record, the all-members
sheet has 2 data rows, and `UsedDays` is 2 for the first user and 0 for the second. -/
theorem two_users_scenario (header : List String)
    (uA uB date1 name1 department1 marker1 platform1 date2 name2 department2 marker2 platform2
      date3 name3 department3 status3 marker3 platform3 : String)
    (extra1 extra2 extra3 : List String) (rows : List (List String))
    (hu : uA ≠ uB) (hs : status3 ≠ "使用") (hm1 : marker1 ≠ "")
    (hm2 : (date1 ≠ "" ∧ marker1 ≠ "--" → marker2 ≠ date1) ∧
      (date1 = "" ∨ marker1 = "--" → marker2 ≠ ""))
    (hrows :
      rows = [date1 :: name1 :: uA :: department1 :: "使用" :: marker1 :: platform1 :: extra1,
              date2 :: name2 :: uA :: department2 :: "使用" :: marker2 :: platform2 :: extra2,
              date3 :: name3 :: uB :: department3 :: status3 :: marker3 :: platform3 :: extra3] ∨
      rows = [date1 :: name1 :: uA :: department1 :: "使用" :: marker1 :: platform1 :: extra1,
              date3 :: name3 :: uB :: department3 :: status3 :: marker3 :: platform3 :: extra3,
              date2 :: name2 :: uA :: department2 :: "使用" :: marker2 :: platform2 :: extra2] ∨
      rows = [date3 :: name3 :: uB :: department3 :: status3 :: marker3 :: platform3 :: extra3,
              date1 :: name1 :: uA :: department1 :: "使用" :: marker1 :: platform1 :: extra1,
              date2 :: name2 :: uA :: department2 :: "使用" :: marker2 :: platform2 :: extra2]) :
    ∃ m eA eB, aggregate (header :: rows) = some m ∧ m.length = 2 ∧
      mapGet m uA = some eA ∧ eA.UsedDays = 2 ∧
      mapGet m uB = some eB ∧ eB.UsedDays = 0 ∧ eB.Username = uB ∧
      ∀ visited visited', IsRangeOrder m visited → IsRangeOrder m visited' →
        collectNeverUsed visited = [eB] ∧ (allMembersRows visited').length = 2 := by
  have hu' : ¬ uB = uA := fun e => hu e.symm
  have hA : (stepUser (stepUser (newUser name1 uA department1 platform1)
      date1 "使用" marker1 platform1) date2 "使用" marker2 platform2).UsedDays = 2 := by
    by_cases hadv : "".toList < date1.toList ∧ marker1 ≠ "--"
    · rw [stepUser_advance (newUser name1 uA department1 platform1) date1 marker1 platform1 hm1
        hadv.1 hadv.2]
      have hd : date1 ≠ "" := by
        intro h
        rw [h] at hadv
        exact absurd hadv.1 (by decide)
      have h2 : marker2 ≠ date1 := hm2.1 ⟨hd, hadv.2⟩
      by_cases hadv2 : date1.toList < date2.toList ∧ marker2 ≠ "--"
      · rw [stepUser_advance _ _ _ _ h2 hadv2.1 hadv2.2]
        rfl
      · rw [stepUser_count _ _ _ _ h2 hadv2]
        rfl
    · rw [stepUser_count (newUser name1 uA department1 platform1) date1 marker1 platform1 hm1
        hadv]
      have h2 : marker2 ≠ "" := by
        apply hm2.2
        by_cases hd : date1 = ""
        · exact Or.inl hd
        · right
          by_contra hmk
          apply hadv
          refine ⟨?_, hmk⟩
          rw [strLt_iff]
          exact lt_of_le_of_ne (empty_le _) (fun h => hd h.symm)
      by_cases hadv2 : "".toList < date2.toList ∧ marker2 ≠ "--"
      · rw [stepUser_advance _ _ _ _ h2 hadv2.1 hadv2.2]
        rfl
      · rw [stepUser_count _ _ _ _ h2 hadv2]
        rfl
  have hB : stepUser (newUser name3 uB department3 platform3) date3 status3 marker3 platform3
      = newUser name3 uB department3 platform3 := stepUser_not_used _ _ _ _ _ hs
  have hfin : ∀ m : UserMap, ∀ eA eB : MemberUsage, eA.UsedDays = 2 → eB.UsedDays = 0 →
      (m = [(uA, eA), (uB, eB)] ∨ m = [(uB, eB), (uA, eA)]) →
      m.length = 2 ∧ mapGet m uA = some eA ∧ mapGet m uB = some eB ∧
      ∀ visited visited', IsRangeOrder m visited → IsRangeOrder m visited' →
        collectNeverUsed visited = [eB] ∧ (allMembersRows visited').length = 2 := by
    intro m eA eB h2 h0 hm
    have hlen : m.length = 2 := by rcases hm with rfl | rfl <;> rfl
    refine ⟨hlen, ?_, ?_, fun visited visited' hv hv' => ⟨?_, ?_⟩⟩
    · rcases hm with rfl | rfl <;> simp [mapGet, hu']
    · rcases hm with rfl | rfl <;> simp [mapGet, hu]
    · have hp : (collectNeverUsed visited).Perm [eB] := by
        have := List.Perm.filter (fun user : MemberUsage => decide (user.UsedDays = 0)) hv
        rcases hm with rfl | rfl <;>
          simpa [collectNeverUsed, List.filter_cons, h2, h0] using this
      exact List.perm_singleton.mp hp
    · rw [allMembersRows, List.length_map, hv'.length_eq, List.length_map, hlen]
  refine ⟨rows.foldl rowStep [],
    stepUser (stepUser (newUser name1 uA department1 platform1)
      date1 "使用" marker1 platform1) date2 "使用" marker2 platform2,
    newUser name3 uB department3 platform3, aggregate_cons _ _, ?_⟩
  have hm : rows.foldl rowStep [] =
        [(uA, stepUser (stepUser (newUser name1 uA department1 platform1)
          date1 "使用" marker1 platform1) date2 "使用" marker2 platform2),
         (uB, newUser name3 uB department3 platform3)] ∨
      rows.foldl rowStep [] =
        [(uB, newUser name3 uB department3 platform3),
         (uA, stepUser (stepUser (newUser name1 uA department1 platform1)
          date1 "使用" marker1 platform1) date2 "使用" marker2 platform2)] := by
    rcases hrows with rfl | rfl | rfl
    · left
      simp [rowStep, stepRow, mapGet, mapSet, hu, hB]
    · left
      simp [rowStep, stepRow, mapGet, mapSet, hu, hu', hB]
    · right
      simp [rowStep, stepRow, mapGet, mapSet, hu, hu', hB]
  obtain ⟨h1, h2, h3, h4⟩ := hfin _ _ _ hA rfl hm
  exact ⟨h1, h2, hA, h3, rfl, rfl, h4⟩

/-- Witness for the amended C3: user `u` used on two days, user `v` never. -/
theorem two_users_scenario_witness :
    ∃ m eA eB, aggregate (["日期"] :: [
        "2024-01-01" :: "a" :: "u" :: "d" :: "使用" :: "2024-01-01 09:00" :: "iOS" :: [],
        "2024-01-02" :: "b" :: "v" :: "d" :: "未使用" :: "--" :: "Web" :: [],
        "2024-01-02" :: "a" :: "u" :: "d" :: "使用" :: "2024-01-02 08:30" :: "Android" :: []])
        = some m ∧ m.length = 2 ∧
      mapGet m "u" = some eA ∧ eA.UsedDays = 2 ∧
      mapGet m "v" = some eB ∧ eB.UsedDays = 0 ∧ eB.Username = "v" ∧
      ∀ visited visited', IsRangeOrder m visited → IsRangeOrder m visited' →
        collectNeverUsed visited = [eB] ∧ (allMembersRows visited').length = 2 :=
  two_users_scenario ["日期"] "u" "v" "2024-01-01" "a" "d" "2024-01-01 09:00" "iOS"
    "2024-01-02" "a" "d" "2024-01-02 08:30" "Android" "2024-01-02" "b" "d" "未使用" "--" "Web"
    [] [] [] _ (by decide) (by decide) (by decide) (by decide) (Or.inr (Or.inl rfl))

end DataScripts
